import Mathlib

/-!
A verification development for the `channels` Go package: composable stream
operators over producer/consumer channels (`Map`, `Flatten`, `Bind`, `Take`,
`Aggregate` and their cancellation-aware `...Until` variants).

A finite, eventually-closed channel is embedded as a `List` of the values it
delivers before closing.  The single-goroutine operators (`Map`, `Take`,
`Aggregate`) become pure list functions transcribed from their loops.  The
fan-in engine underlying `Flatten`/`Bind` is embedded twice, at two levels of
abstraction:

* `Merge` / `MergeU`: a relation between the engine's inputs and the complete
  contents of the output channel, capturing every interleaving the concurrent
  drain goroutines can produce (`MergeU` adds the early stops a closed `done`
  channel makes possible);
* `Sys` / `Step`: a small-step transition system with one state per goroutine
  program point (outer loop, each drain task's select / blocked send, the
  final `wait.Wait()` and `close(out)`), used for the closure, cancellation
  and blocked-send properties.
-/

namespace Channels

/-- `Map` transcribed from the source: a single goroutine forwards `f value`
for each `value` received, in order, then closes; so the output channel's
contents are exactly `ch.map f`. -/
def Map {α β : Type} (ch : List α) (f : α → β) : List β :=
  ch.map f

/-- The body of `Take`'s goroutine: `for value := range ch { out <- value;
seen++; if seen == count { return } }`, with `seen` starting at the given
value.  Go's `int` is idealized here as unbounded `Int`; that is adequate
exactly while the counter stays in the representable window — for
`0 ≤ count` the loop keeps `0 ≤ seen ≤ count`, far from the wrap.  The
wrap-faithful counter is `takeLoopW` below. -/
def takeLoop {α : Type} : List α → Int → Int → List α
  | [], _, _ => []
  | v :: rest, seen, count =>
      if seen + 1 = count then [v] else v :: takeLoop rest (seen + 1) count

/-- `Take` transcribed from the source: `count == 0` is special-cased to
`Empty` (a closed channel with no elements); otherwise the goroutine runs
`takeLoop` with `seen = 0`. -/
def Take {α : Type} (ch : List α) (count : Int) : List α :=
  if count = 0 then [] else takeLoop ch 0 count

/-- Two's-complement increment of a machine integer with representable range
`[-half, half)`: Go's `seen++` on an `int`, with `half = 2 ^ 63` on a 64-bit
platform and `2 ^ 31` on a 32-bit one. -/
def wrapInc (half : Int) (s : Int) : Int :=
  if s + 1 = half then -half else s + 1

/-- `takeLoop` with the wrapping counter the source actually has. -/
def takeLoopW {α : Type} (half : Int) : List α → Int → Int → List α
  | [], _, _ => []
  | v :: rest, seen, count =>
      if wrapInc half seen = count then [v]
      else v :: takeLoopW half rest (wrapInc half seen) count

/-- `Take` over the wrapping counter: `count == 0` special-cased, then the
loop with `seen = 0`. -/
def TakeW {α : Type} (half : Int) (ch : List α) (count : Int) : List α :=
  if count = 0 then [] else takeLoopW half ch 0 count

/-- The body of `Aggregate`'s loop: `result := seed; for value := range ch {
result = f(value, result) }`. -/
def aggLoop {α ρ : Type} (f : α → ρ → ρ) : List α → ρ → ρ
  | [], r => r
  | v :: rest, r => aggLoop f rest (f v r)

/-- `Aggregate` transcribed from the source: run the accumulation loop, send
the single final `result`, close.  The output channel therefore holds exactly
one value. -/
def Aggregate {α ρ : Type} (ch : List α) (seed : ρ) (f : α → ρ → ρ) : List ρ :=
  [aggLoop f ch seed]

/-- `Bind` as `operators.go` (the sequential variant) writes it: for each
input `value`, drain `f value` entirely into `out` before reading the next
input; the output contents are `(ch.map f).flatten`. -/
def BindSeq {α β : Type} (ch : List α) (f : α → List β) : List β :=
  (ch.map f).flatten

/-!  ## The fan-in engine as an interleaving relation

`Merge f pending tasks out` holds when the engine — its outer loop still
having `pending` to read and the already-spawned drain goroutines holding the
unsent remainders `tasks` — can run to completion producing exactly `out` on
the shared output channel.  The constructors transcribe the code:

* `nil`: the outer loop has exhausted its input and every drain goroutine has
  exhausted its inner channel, so `wait.Wait()` returns and `out` is closed;
* `spawn`: the outer loop receives the next item, obtains the inner channel
  by applying `f` (`f = id` for `Flatten`, the transform for `Bind`), does
  `wait.Add(1)` and starts a drain goroutine for it;
* `emit`: any one of the running drain goroutines sends the next value of its
  inner channel to `out`.

`MergeU` adds `stop`: once the caller-owned `done` channel is closed, the
outer select and every drain select can take the `<-done` case, so the
remaining input and all unsent remainders may be abandoned at any point. -/

inductive Merge {γ δ : Type} (f : γ → List δ) : List γ → List (List δ) → List δ → Prop where
  | nil (tasks : List (List δ)) :
      (∀ t ∈ tasks, t = []) → Merge f [] tasks []
  | spawn (x : γ) (pending : List γ) (tasks : List (List δ)) (out : List δ) :
      Merge f pending (tasks ++ [f x]) out → Merge f (x :: pending) tasks out
  | emit (pending : List γ) (pre post : List (List δ)) (v : δ) (rest : List δ) (out : List δ) :
      Merge f pending (pre ++ rest :: post) out →
      Merge f pending (pre ++ (v :: rest) :: post) (v :: out)

inductive MergeU {γ δ : Type} (f : γ → List δ) : List γ → List (List δ) → List δ → Prop where
  | stop (pending : List γ) (tasks : List (List δ)) :
      MergeU f pending tasks []
  | spawn (x : γ) (pending : List γ) (tasks : List (List δ)) (out : List δ) :
      MergeU f pending (tasks ++ [f x]) out → MergeU f (x :: pending) tasks out
  | emit (pending : List γ) (pre post : List (List δ)) (v : δ) (rest : List δ) (out : List δ) :
      MergeU f pending (pre ++ rest :: post) out →
      MergeU f pending (pre ++ (v :: rest) :: post) (v :: out)

/-- `Flatten` transcribed from the source: the outer loop receives each inner
channel directly (the transform applied to a received item is the identity)
and starts with no drain goroutines; `out` can hold any `Merge`-interleaving. -/
def Flatten {α : Type} (ch : List (List α)) (out : List α) : Prop :=
  Merge id ch [] out

/-- `Bind` transcribed from the source (the fused goroutine-per-inner variant
of `src/unnamed/part_000`): identical loop to `Flatten`, except the inner
channel drained is `f value` for each received `value`. -/
def Bind {α β : Type} (ch : List α) (f : α → List β) (out : List β) : Prop :=
  Merge f ch [] out

/-- `FlattenUntil` transcribed from the source.  The `done` argument is the
caller-owned cancellation channel; it is only ever received from, and it can
close at any moment, so the set of possible output contents does not depend
on which channel it is — its effect is `MergeU`'s `stop`. -/
def FlattenUntil {α : Type} (done : Nat) (ch : List (List α)) (out : List α) : Prop :=
  MergeU id ch [] out

/-- `BindUntil` transcribed from the source: `FlattenUntil`'s loop with the
inner channel obtained as `f value`. -/
def BindUntil {α β : Type} (done : Nat) (ch : List α) (f : α → List β) (out : List β) : Prop :=
  MergeU f ch [] out

/-- A Go `context.Context` as `BindUntilC` uses it: it carries a `Done()`
channel (an opaque token here, see `FlattenUntil`) plus caller-supplied
values that the transform may read. -/
structure GoCtx (κ : Type) where
  doneSig : Nat
  values : κ

/-- `ctx.Done()`. -/
def ctxDone {κ : Type} (c : GoCtx κ) : Nat :=
  c.doneSig

/-- `BindUntilC` transcribed from the source: `g := func(x A) <-chan B {
return f(ctx, x) }; return BindUntil(ctx.Done(), ch, g)`. -/
def BindUntilC {κ α β : Type} (ctx : GoCtx κ) (ch : List α) (f : GoCtx κ → α → List β)
    (out : List β) : Prop :=
  BindUntil (ctxDone ctx) ch (fun x => f ctx x) out

/-! ## Contents of a completed merge -/

theorem flatten_eq_nil_of_all_nil {δ : Type} :
    ∀ {L : List (List δ)}, (∀ t ∈ L, t = []) → L.flatten = [] := by
  intro L
  induction L with
  | nil => intro _; rfl
  | cons t ts ih =>
      intro hall
      have ht : t = [] := hall t (by simp)
      have hts : ts.flatten = [] := ih (fun u hu => hall u (by simp [hu]))
      simp [ht, hts]

/-- Any complete run of the engine delivers exactly the values of the spawned
inner channels and of the remaining input, as a multiset. -/
theorem merge_perm {γ δ : Type} {f : γ → List δ} :
    ∀ {pending : List γ} {tasks : List (List δ)} {out : List δ},
      Merge f pending tasks out → List.Perm out (tasks.flatten ++ (pending.map f).flatten) := by
  intro pending tasks out h
  induction h with
  | nil tasks hall =>
      have hj : tasks.flatten = [] := flatten_eq_nil_of_all_nil hall
      simp [hj]
  | spawn x pending tasks out _ ih =>
      simpa [List.flatten_append, List.append_assoc] using ih
  | emit pending pre post v rest out _ ih =>
      have h1 : List.Perm (v :: out)
          (v :: (pre.flatten ++ (rest ++ (post.flatten ++ (pending.map f).flatten)))) := by
        refine List.Perm.cons v ?_
        simpa [List.flatten_append, List.append_assoc] using ih
      refine h1.trans ?_
      have h2 : List.Perm
          (v :: (pre.flatten ++ (rest ++ (post.flatten ++ (pending.map f).flatten))))
          (pre.flatten ++ v :: (rest ++ (post.flatten ++ (pending.map f).flatten))) :=
        List.perm_middle.symm
      simpa [List.flatten_append, List.append_assoc] using h2

/-- Claim C1: with no cancellation, `Flatten` over inner channels of lengths
`L i` outputs exactly `Σ L i` values — the multiset union of the inner
channels' contents, no value skipped — and likewise `Bind` outputs the union
of the contents of `f x` over every input element `x`. -/
theorem flatten_bind_complete {α β : Type} :
    (∀ (chs : List (List α)) (out : List α), Flatten chs out →
        List.Perm out chs.flatten ∧ out.length = (chs.map List.length).sum)
    ∧ (∀ (ch : List α) (f : α → List β) (out : List β), Bind ch f out →
        List.Perm out (ch.map f).flatten
          ∧ out.length = ((ch.map f).map List.length).sum) := by
  constructor
  · intro chs out h
    have hp : List.Perm out chs.flatten := by simpa using merge_perm h
    exact ⟨hp, by rw [hp.length_eq, List.length_flatten]⟩
  · intro ch f out h
    have hp : List.Perm out (ch.map f).flatten := by simpa using merge_perm h
    exact ⟨hp, by rw [hp.length_eq, List.length_flatten]⟩

/-! ## Bind is Flatten after Map -/

theorem merge_of_map {γ δ : Type} {f : γ → List δ} :
    ∀ {pending : List γ} {tasks : List (List δ)} {out : List δ},
      Merge f pending tasks out → Merge id (pending.map f) tasks out := by
  intro pending tasks out h
  induction h with
  | nil tasks hall => exact Merge.nil tasks hall
  | spawn x pending tasks out _ ih =>
      exact Merge.spawn (f x) (pending.map f) tasks out ih
  | emit pending pre post v rest out _ ih =>
      exact Merge.emit (pending.map f) pre post v rest out ih

theorem merge_to_map {γ δ : Type} {f : γ → List δ} :
    ∀ {q : List (List δ)} {tasks : List (List δ)} {out : List δ},
      Merge id q tasks out →
      ∀ pending : List γ, q = pending.map f → Merge f pending tasks out := by
  intro q tasks out h
  induction h with
  | nil tasks hall =>
      intro pending hq
      cases pending with
      | nil => exact Merge.nil tasks hall
      | cons x p => simp at hq
  | spawn x' q' tasks out _ ih =>
      intro pending hq
      cases pending with
      | nil => simp at hq
      | cons x p =>
          simp only [List.map_cons, List.cons.injEq] at hq
          obtain ⟨hx, hp⟩ := hq
          refine Merge.spawn x p tasks out ?_
          have := ih p hp
          simpa [hx] using this
  | emit q' pre post v rest out _ ih =>
      intro pending hq
      exact Merge.emit pending pre post v rest out (ih pending hq)

/-- Padding a finished (empty) drain goroutine in front of the task list does
not change what a run can produce. -/
theorem merge_pad {γ δ : Type} {f : γ → List δ} :
    ∀ {pending : List γ} {tasks : List (List δ)} {out : List δ},
      Merge f pending tasks out → Merge f pending ([] :: tasks) out := by
  intro pending tasks out h
  induction h with
  | nil tasks hall =>
      refine Merge.nil ([] :: tasks) ?_
      intro t ht
      rcases List.mem_cons.mp ht with h1 | h1
      · exact h1
      · exact hall t h1
  | spawn x pending tasks out _ ih =>
      exact Merge.spawn x pending ([] :: tasks) out ih
  | emit pending pre post v rest out _ ih =>
      exact Merge.emit pending ([] :: pre) post v rest out ih

/-- A freshly spawned drain goroutine can be scheduled to empty its whole
inner channel before anything else runs. -/
theorem merge_prepend {γ δ : Type} {f : γ → List δ} :
    ∀ (t : List δ) {pending : List γ} {tasks : List (List δ)} {out : List δ},
      Merge f pending tasks out → Merge f pending (t :: tasks) (t ++ out) := by
  intro t
  induction t with
  | nil => intro pending tasks out h; simpa using merge_pad h
  | cons v t' ih =>
      intro pending tasks out h
      have h1 : Merge f pending (t' :: tasks) (t' ++ out) := ih h
      have h2 := Merge.emit (f := f) pending [] tasks v t' (t' ++ out) (by simpa using h1)
      simpa using h2

/-- Draining every inner channel to exhaustion strictly in input order is one
of the engine's possible schedules. -/
theorem merge_join {γ δ : Type} (f : γ → List δ) :
    ∀ pending : List γ, Merge f pending [] (pending.map f).flatten := by
  intro pending
  induction pending with
  | nil => exact Merge.nil [] (by simp)
  | cons x p ih =>
      refine Merge.spawn x p [] ((x :: p).map f).flatten ?_
      simpa using merge_prepend (f x) ih

/-- Claim C5: `Bind ch f` is semantically equivalent to `Flatten (Map ch f)`
— they admit exactly the same output-channel contents — and the sequential
`Bind` of `operators.go` (which drains each `f value` fully before reading
the next input) realizes one of those contents. -/
theorem bind_eq_flatten_map {α β : Type} :
    (∀ (ch : List α) (f : α → List β) (out : List β),
        Bind ch f out ↔ Flatten (Map ch f) out)
    ∧ (∀ (ch : List α) (f : α → List β), Flatten (Map ch f) (BindSeq ch f)) := by
  constructor
  · intro ch f out
    constructor
    · intro h; exact merge_of_map h
    · intro h; exact merge_to_map h ch rfl
  · intro ch f
    have h := merge_join id (Map ch f)
    simpa [Flatten, BindSeq, Map] using h

/-! ## Take and Aggregate -/

theorem takeLoop_eq_take {α : Type} :
    ∀ (ch : List α) (seen count : Int), seen < count →
      takeLoop ch seen count = List.take (count - seen).toNat ch := by
  intro ch
  induction ch with
  | nil => intro seen count _; simp [takeLoop]
  | cons v rest ih =>
      intro seen count h
      by_cases hv : seen + 1 = count
      · have h1 : (count - seen).toNat = 1 := by omega
        simp [takeLoop, hv, h1]
      · have h2 : (count - seen).toNat = (count - (seen + 1)).toNat + 1 := by omega
        have h3 : seen + 1 < count := by omega
        simp [takeLoop, hv, h2, List.take_succ_cons, ih (seen + 1) count h3]

/-- Claim C7: for every `count ≥ 0`, `Take ch count` outputs exactly the
first `min count ch.length` input elements in input order and then closes;
`Take ch 0` is an already-closed empty channel. -/
theorem take_nonneg_eq_take {α : Type} (ch : List α) (count : Int) (h : 0 ≤ count) :
    Take ch count = List.take count.toNat ch := by
  by_cases h0 : count = 0
  · simp [Take, h0]
  · have hpos : 0 < count := by omega
    have := takeLoop_eq_take ch 0 count hpos
    simpa [Take, h0] using this

theorem take_nonneg_eq_take_w :
    Take [10, 20, 30] (2 : Int) = List.take (2 : Int).toNat [10, 20, 30] :=
  take_nonneg_eq_take [10, 20, 30] 2 (by decide)

theorem takeLoopW_neg_phase {α : Type} (half : Int) :
    ∀ (ch : List α) (s c : Int), 1 ≤ half → -half ≤ s → s < c → c < 0 →
      takeLoopW half ch s c = List.take (c - s).toNat ch := by
  intro ch
  induction ch with
  | nil => intro s c _ _ _ _; simp [takeLoopW]
  | cons v rest ih =>
      intro s c hh hs hsc hc
      have hw : ¬(s + 1 = half) := by omega
      have hwr : wrapInc half s = s + 1 := by simp [wrapInc, hw]
      have hstep : takeLoopW half (v :: rest) s c
          = if wrapInc half s = c then [v]
            else v :: takeLoopW half rest (wrapInc half s) c := rfl
      rw [hstep, hwr]
      by_cases he : s + 1 = c
      · rw [if_pos he]
        have h1 : (c - s).toNat = 1 := by omega
        simp [h1]
      · rw [if_neg he]
        have h2 : (c - s).toNat = (c - (s + 1)).toNat + 1 := by omega
        rw [ih (s + 1) c hh (by omega) (by omega) hc, h2, List.take_succ_cons]

theorem takeLoopW_wrap {α : Type} (half : Int) :
    ∀ (ch : List α) (s c : Int), 1 ≤ half → 0 ≤ s → s < half → -half ≤ c → c < 0 →
      takeLoopW half ch s c = List.take (2 * half + c - s).toNat ch := by
  intro ch
  induction ch with
  | nil => intro s c _ _ _ _ _; simp [takeLoopW]
  | cons v rest ih =>
      intro s c hh hs0 hsh hcl hc
      have hstep : takeLoopW half (v :: rest) s c
          = if wrapInc half s = c then [v]
            else v :: takeLoopW half rest (wrapInc half s) c := rfl
      by_cases hw : s + 1 = half
      · have hwr : wrapInc half s = -half := by simp [wrapInc, hw]
        rw [hstep, hwr]
        by_cases he : -half = c
        · rw [if_pos he]
          have h1 : (2 * half + c - s).toNat = 1 := by omega
          simp [h1]
        · rw [if_neg he]
          rw [takeLoopW_neg_phase half rest (-half) c hh (by omega) (by omega) hc]
          have h2 : (2 * half + c - s).toNat = (c - -half).toNat + 1 := by omega
          rw [h2, List.take_succ_cons]
      · have hwr : wrapInc half s = s + 1 := by simp [wrapInc, hw]
        rw [hstep, hwr]
        have he : ¬(s + 1 = c) := by omega
        rw [if_neg he]
        rw [ih (s + 1) c hh (by omega) (by omega) hcl hc]
        have h2 : (2 * half + c - s).toNat = (2 * half + c - (s + 1)).toNat + 1 := by omega
        rw [h2, List.take_succ_cons]

/-- Claim C10, amended: only `count == 0` is special-cased, and the
`seen == count` quota test cannot fire while the counter is nonnegative; but
`seen` is a wrapping machine `int` with representable range `[-half, half)`
(`half = 2 ^ 63` on a 64-bit platform, `2 ^ 31` on a 32-bit one), so for a
negative representable `count` the test fires once the counter wraps:
`Take` forwards exactly the first `2 * half + count` input elements — every
element only of inputs shorter than that — and it terminates on longer (in
particular unbounded) inputs. -/
theorem take_negative_wrapped {α : Type} (half : Int) (ch : List α) (count : Int)
    (hh : 1 ≤ half) (hcl : -half ≤ count) (hc : count < 0) :
    TakeW half ch count = List.take (2 * half + count).toNat ch := by
  have h0 : ¬(count = 0) := by omega
  have h1 := takeLoopW_wrap half ch 0 count hh (by omega) (by omega) hcl hc
  simpa [TakeW, h0] using h1

/-- Claim C10, counterexample: the claim says the `seen == count` quota test
never fires for a negative count, so `Take` forwards every element until the
input closes (and never terminates on an unbounded input).  But `seen` is a
wrapping machine `int`: on a 64-bit platform (`half = 2 ^ 63`), for
`count = -1` the wrapped counter reaches `-1` after `2 ^ 64 - 1` increments,
so on an input of `2 ^ 64` elements `Take` stops early and drops the last
element — it does not forward every element. -/
theorem take_negative_wraps_cex :
    TakeW (2 ^ 63) (List.replicate (2 ^ 64) (0 : Nat)) (-1)
      = List.replicate (2 ^ 64 - 1) (0 : Nat)
    ∧ TakeW (2 ^ 63) (List.replicate (2 ^ 64) (0 : Nat)) (-1)
      ≠ List.replicate (2 ^ 64) (0 : Nat) := by
  have h := take_negative_wrapped (2 ^ 63) (List.replicate (2 ^ 64) (0 : Nat)) (-1)
    (by norm_num) (by norm_num) (by norm_num)
  have harith : ((2 * 2 ^ 63 + (-1) : Int)).toNat = 2 ^ 64 - 1 := by
    have he : (2 * 2 ^ 63 + (-1) : Int) = ((2 ^ 64 - 1 : Nat) : Int) := by norm_num
    rw [he, Int.toNat_natCast]
  rw [harith, List.take_replicate] at h
  have hmin : min (2 ^ 64 - 1) (2 ^ 64) = 2 ^ 64 - 1 :=
    Nat.min_eq_left (by norm_num)
  rw [hmin] at h
  refine ⟨h, ?_⟩
  rw [h]
  intro hcontra
  have hlen : (2 ^ 64 - 1 : Nat) = 2 ^ 64 := by
    have h1 := congrArg List.length hcontra
    rwa [List.length_replicate, List.length_replicate] at h1
  norm_num at hlen

theorem take_negative_wrapped_w :
    TakeW 2 [1, 2, 3, 4, 5] (-1) = List.take (2 * 2 + (-1) : Int).toNat [1, 2, 3, 4, 5] :=
  take_negative_wrapped 2 [1, 2, 3, 4, 5] (-1) (by decide) (by decide) (by decide)

theorem aggLoop_eq_foldl {α ρ : Type} (f : α → ρ → ρ) :
    ∀ (ch : List α) (r : ρ), aggLoop f ch r = ch.foldl (fun r v => f v r) r := by
  intro ch
  induction ch with
  | nil => intro r; simp [aggLoop]
  | cons v rest ih => intro r; simp [aggLoop, List.foldl_cons, ih]

/-- Claim C9: `Aggregate ch seed f` emits exactly one value — the left fold
of the input, each element applied to the running result starting from
`seed` — and then closes; on an empty input it emits the seed itself. -/
theorem aggregate_single_fold {α ρ : Type} :
    (∀ (ch : List α) (seed : ρ) (f : α → ρ → ρ),
        (Aggregate ch seed f).length = 1
          ∧ Aggregate ch seed f = [ch.foldl (fun r v => f v r) seed])
    ∧ (∀ (seed : ρ) (f : α → ρ → ρ), Aggregate ([] : List α) seed f = [seed]) := by
  constructor
  · intro ch seed f
    exact ⟨rfl, by simp [Aggregate, aggLoop_eq_foldl]⟩
  · intro seed f
    simp [Aggregate, aggLoop]

/-- Claim C8: `BindUntilC ctx ch f` is a thin adapter: it is exactly
`BindUntil (ctx.Done()) ch (fun x => f ctx x)`, adding no semantics of its
own — the same output-channel contents are possible on both sides. -/
theorem bindUntilC_is_adapter {κ α β : Type} :
    ∀ (ctx : GoCtx κ) (ch : List α) (f : GoCtx κ → α → List β) (out : List β),
      (BindUntilC ctx ch f out ↔ BindUntil (ctxDone ctx) ch (fun x => f ctx x) out)
        ∧ (BindUntilC ctx ch f out ↔ MergeU (fun x => f ctx x) ch [] out) := by
  intro ctx ch f out
  exact ⟨Iff.rfl, Iff.rfl⟩


/-! ## Per-inner-channel ordering

To speak about which inner channel a delivered value originated from, the
inner channels are tagged: channel number `i` carries values `(i, v)`.
`selTag j out` recovers, in output order, the values of `out` that originated
from channel `j`. -/

/-- The values tagged `j`, in order. -/
def selTag {α : Type} (j : Nat) : List (Nat × α) → List α :=
  List.filterMap (fun p => if p.1 = j then some p.2 else none)

theorem selTag_nil {α : Type} (j : Nat) : selTag j ([] : List (Nat × α)) = [] :=
  rfl

theorem selTag_cons {α : Type} (j : Nat) (p : Nat × α) (l : List (Nat × α)) :
    selTag j (p :: l) = if p.1 = j then p.2 :: selTag j l else selTag j l := by
  by_cases h : p.1 = j <;> simp [selTag, List.filterMap_cons, h]

theorem selTag_append {α : Type} (j : Nat) (l1 l2 : List (Nat × α)) :
    selTag j (l1 ++ l2) = selTag j l1 ++ selTag j l2 := by
  simp [selTag]

theorem selTag_map_mk {α : Type} (c : List α) (i j : Nat) :
    selTag j (c.map (Prod.mk i)) = if i = j then c else [] := by
  induction c with
  | nil => by_cases h : i = j <;> simp [selTag, h]
  | cons v c ih =>
      by_cases h : i = j
      · subst h; simp [selTag_cons, ih]
      · simp [selTag_cons, h, ih]

theorem selTag_flatten_nil {α : Type} (j : Nat) :
    ∀ {L : List (List (Nat × α))}, (∀ a ∈ L, selTag j a = []) → selTag j L.flatten = [] := by
  intro L
  induction L with
  | nil => intro _; rfl
  | cons a L ih =>
      intro h
      have ha : selTag j a = [] := h a (by simp)
      have hL : selTag j L.flatten = [] := ih (fun b hb => h b (by simp [hb]))
      simp [selTag_append, ha, hL]

theorem selTag_tail_eq_nil {α : Type} {j : Nat} {v : Nat × α} {rest : List (Nat × α)}
    (h : selTag j (v :: rest) = []) : selTag j rest = [] := by
  by_cases hv : v.1 = j
  · simp [selTag_cons, hv] at h
  · simpa [selTag_cons, hv] using h

/-- Two inner channels carry values destined for different tags: at most one
of them contributes to any tag `j`. -/
def TagDisj {α : Type} (a b : List (Nat × α)) : Prop :=
  ∀ j, selTag j a = [] ∨ selTag j b = []

theorem tagDisj_shrink_right {α : Type} {a : List (Nat × α)} {v : Nat × α}
    {rest : List (Nat × α)} (h : TagDisj a (v :: rest)) : TagDisj a rest := by
  intro j
  rcases h j with h1 | h1
  · exact Or.inl h1
  · exact Or.inr (selTag_tail_eq_nil h1)

theorem tagDisj_shrink_left {α : Type} {b : List (Nat × α)} {v : Nat × α}
    {rest : List (Nat × α)} (h : TagDisj (v :: rest) b) : TagDisj rest b := by
  intro j
  rcases h j with h1 | h1
  · exact Or.inl (selTag_tail_eq_nil h1)
  · exact Or.inr h1

theorem pairwise_tagDisj_middle {α : Type} {pre post : List (List (Nat × α))}
    {v : Nat × α} {rest : List (Nat × α)}
    (h : List.Pairwise TagDisj (pre ++ (v :: rest) :: post)) :
    List.Pairwise TagDisj (pre ++ rest :: post) := by
  rw [List.pairwise_append, List.pairwise_cons] at h
  rw [List.pairwise_append, List.pairwise_cons]
  obtain ⟨h1, ⟨h2a, h2b⟩, h3⟩ := h
  refine ⟨h1, ⟨fun b hb => tagDisj_shrink_left (h2a b hb), h2b⟩, ?_⟩
  intro a ha b hb
  rcases List.mem_cons.mp hb with hb1 | hb1
  · rw [hb1]
    exact tagDisj_shrink_right (h3 a ha (v :: rest) (List.mem_cons_self _ _))
  · exact h3 a ha b (List.mem_cons_of_mem _ hb1)

/-- The values of tag `j` in a completed run of the fan-in engine are exactly
the tag-`j` values of the spawned and remaining inner channels, in those
channels' own order, provided no two channels share a tag. -/
theorem merge_selTag {α γ : Type} {f : γ → List (Nat × α)} :
    ∀ {pending : List γ} {tasks : List (List (Nat × α))} {out : List (Nat × α)},
      Merge f pending tasks out →
      List.Pairwise TagDisj (tasks ++ pending.map f) →
      ∀ j, selTag j out = selTag j ((tasks ++ pending.map f).flatten) := by
  intro pending tasks out h
  induction h with
  | nil tasks hall =>
      intro _ j
      have hj : tasks.flatten = [] := flatten_eq_nil_of_all_nil hall
      simp [hj, selTag]
  | spawn x pending tasks out _ ih =>
      intro hp j
      have hp2 : List.Pairwise TagDisj ((tasks ++ [f x]) ++ pending.map f) := by
        simpa [List.append_assoc] using hp
      have := ih hp2 j
      simpa [List.append_assoc] using this
  | emit pending pre post v rest out _ ih =>
      intro hp j
      have hp1 : List.Pairwise TagDisj (pre ++ (v :: rest) :: (post ++ pending.map f)) := by
        simpa [List.append_assoc] using hp
      have hp2 : List.Pairwise TagDisj (pre ++ rest :: (post ++ pending.map f)) :=
        pairwise_tagDisj_middle hp1
      have ihj := ih (by simpa [List.append_assoc] using hp2) j
      by_cases hv : v.1 = j
      · have hpre : selTag j pre.flatten = [] := by
          refine selTag_flatten_nil j ?_
          intro a ha
          have hrel := (List.pairwise_append.mp hp1).2.2 a ha (v :: rest) (by simp)
          rcases hrel j with h1 | h1
          · exact h1
          · exfalso
            rw [selTag_cons, if_pos hv] at h1
            exact List.cons_ne_nil _ _ h1
        simp only [List.append_assoc, List.flatten_append, List.flatten_cons,
          selTag_append, selTag_cons, if_pos hv, hpre] at ihj ⊢
        simp [ihj]
      · simp only [List.append_assoc, List.flatten_append, List.flatten_cons,
          selTag_append, selTag_cons, if_neg hv] at ihj ⊢
        simp [ihj]

/-- As `merge_selTag`, for the cancellation-aware engine: the run may stop at
any point, so tag `j` contributes some leading segment of channel `j`. -/
theorem mergeU_selTag {α γ : Type} {f : γ → List (Nat × α)} :
    ∀ {pending : List γ} {tasks : List (List (Nat × α))} {out : List (Nat × α)},
      MergeU f pending tasks out →
      List.Pairwise TagDisj (tasks ++ pending.map f) →
      ∀ j, ∃ t, selTag j out ++ t = selTag j ((tasks ++ pending.map f).flatten) := by
  intro pending tasks out h
  induction h with
  | stop pending tasks =>
      intro _ j
      exact ⟨selTag j ((tasks ++ pending.map f).flatten), by simp [selTag]⟩
  | spawn x pending tasks out _ ih =>
      intro hp j
      have hp2 : List.Pairwise TagDisj ((tasks ++ [f x]) ++ pending.map f) := by
        simpa [List.append_assoc] using hp
      obtain ⟨t, ht⟩ := ih hp2 j
      exact ⟨t, by simpa [List.append_assoc] using ht⟩
  | emit pending pre post v rest out _ ih =>
      intro hp j
      have hp1 : List.Pairwise TagDisj (pre ++ (v :: rest) :: (post ++ pending.map f)) := by
        simpa [List.append_assoc] using hp
      have hp2 : List.Pairwise TagDisj (pre ++ rest :: (post ++ pending.map f)) :=
        pairwise_tagDisj_middle hp1
      obtain ⟨t, ht⟩ := ih (by simpa [List.append_assoc] using hp2) j
      by_cases hv : v.1 = j
      · have hpre : selTag j pre.flatten = [] := by
          refine selTag_flatten_nil j ?_
          intro a ha
          have hrel := (List.pairwise_append.mp hp1).2.2 a ha (v :: rest) (by simp)
          rcases hrel j with h1 | h1
          · exact h1
          · exfalso
            rw [selTag_cons, if_pos hv] at h1
            exact List.cons_ne_nil _ _ h1
        refine ⟨t, ?_⟩
        simp only [List.append_assoc, List.flatten_append, List.flatten_cons,
          selTag_append, selTag_cons, if_pos hv, hpre] at ht ⊢
        simp [ht]
      · refine ⟨t, ?_⟩
        simp only [List.append_assoc, List.flatten_append, List.flatten_cons,
          selTag_append, selTag_cons, if_neg hv] at ht ⊢
        simp [ht]


/-- Tag channel number `i₀ + k` with `i₀ + k`: the tagged copy of a channel
list, for reasoning about value origin. -/
def withTagsFrom {α : Type} : Nat → List (List α) → List (List (Nat × α))
  | _, [] => []
  | i, c :: rest => c.map (Prod.mk i) :: withTagsFrom (i + 1) rest

def withTags {α : Type} (chs : List (List α)) : List (List (Nat × α)) :=
  withTagsFrom 0 chs

theorem selTag_withTagsFrom_flatten_lt {α : Type} :
    ∀ (chs : List (List α)) (i j : Nat), j < i →
      selTag j ((withTagsFrom i chs).flatten) = [] := by
  intro chs
  induction chs with
  | nil => intro i j _; rfl
  | cons c rest ih =>
      intro i j h
      have hi : ¬(i = j) := by omega
      simp [withTagsFrom, selTag_append, selTag_map_mk, hi, ih (i + 1) j (by omega)]

theorem selTag_withTagsFrom_flatten {α : Type} :
    ∀ (chs : List (List α)) (i k : Nat) (h : k < chs.length),
      selTag (i + k) ((withTagsFrom i chs).flatten) = chs.get ⟨k, h⟩ := by
  intro chs
  induction chs with
  | nil => intro i k h; simp at h
  | cons c rest ih =>
      intro i k h
      cases k with
      | zero =>
          simp [withTagsFrom, selTag_append, selTag_map_mk,
            selTag_withTagsFrom_flatten_lt rest (i + 1) i (by omega)]
      | succ k =>
          have hk : k < rest.length := by simpa using Nat.lt_of_succ_lt_succ h
          have harith : i + (k + 1) = (i + 1) + k := by omega
          have hi : ¬(i = i + (k + 1)) := by omega
          rw [harith]
          simp [withTagsFrom, selTag_append, selTag_map_mk, ih (i + 1) k hk,
            show ¬(i = i + 1 + k) by omega]

theorem selTag_mem_withTagsFrom {α : Type} :
    ∀ (chs : List (List α)) (i : Nat) (x : List (Nat × α)), x ∈ withTagsFrom i chs →
      ∀ j, j < i → selTag j x = [] := by
  intro chs
  induction chs with
  | nil => intro i x hx; simp [withTagsFrom] at hx
  | cons c rest ih =>
      intro i x hx j hj
      rcases List.mem_cons.mp hx with h1 | h1
      · rw [h1, selTag_map_mk, if_neg (by omega)]
      · exact ih (i + 1) x h1 j (by omega)

theorem pairwise_withTagsFrom {α : Type} :
    ∀ (chs : List (List α)) (i : Nat), List.Pairwise TagDisj (withTagsFrom i chs) := by
  intro chs
  induction chs with
  | nil => intro i; simp [withTagsFrom]
  | cons c rest ih =>
      intro i
      rw [withTagsFrom, List.pairwise_cons]
      refine ⟨?_, ih (i + 1)⟩
      intro x hx j
      by_cases hij : j = i
      · refine Or.inr ?_
        rw [hij]
        exact selTag_mem_withTagsFrom rest (i + 1) x hx i (by omega)
      · exact Or.inl (by rw [selTag_map_mk, if_neg (fun h => hij h.symm)])

theorem map_enumFrom_tags {β : Type} :
    ∀ (chs : List (List β)) (i : Nat),
      (List.enumFrom i chs).map (fun p => p.2.map (Prod.mk p.1)) = withTagsFrom i chs := by
  intro chs
  induction chs with
  | nil => intro i; rfl
  | cons c rest ih => intro i; simp [List.enumFrom, withTagsFrom, ih (i + 1)]

/-- Claim C6: in every operator of the merge family, the values originating
from one inner channel appear in the output in that channel's own emission
order: with inner channels tagged by their index, the tag-`j` subsequence of
any `Flatten`/`Bind` output is exactly channel `j` (for `Bind`, exactly the
channel the transform produced for the `j`-th input), and of any
`FlattenUntil`/`BindUntil` output is a leading segment of it.  Between
different inner channels no order is imposed: the last conjunct exhibits two
runs of `Flatten` over the same input whose outputs order the two channels'
values both ways. -/
theorem inner_order_preserved {α β : Type} :
    (∀ (chs : List (List α)) (out : List (Nat × α)) (j : Nat) (h : j < chs.length),
        Flatten (withTags chs) out → selTag j out = chs.get ⟨j, h⟩)
    ∧ (∀ (done : Nat) (chs : List (List α)) (out : List (Nat × α)) (j : Nat)
          (h : j < chs.length),
        FlattenUntil done (withTags chs) out →
        ∃ t, selTag j out ++ t = chs.get ⟨j, h⟩)
    ∧ (∀ (chs : List (List β)) (out : List (Nat × β)) (j : Nat) (h : j < chs.length),
        Bind chs.enum (fun p => p.2.map (Prod.mk p.1)) out → selTag j out = chs.get ⟨j, h⟩)
    ∧ (∀ (done : Nat) (chs : List (List β)) (out : List (Nat × β)) (j : Nat)
          (h : j < chs.length),
        BindUntil done chs.enum (fun p => p.2.map (Prod.mk p.1)) out →
        ∃ t, selTag j out ++ t = chs.get ⟨j, h⟩)
    ∧ (Flatten [[1], [2]] [1, 2] ∧ Flatten [[1], [2]] [2, 1]) := by
  have hpair : ∀ (chs : List (List α)),
      List.Pairwise TagDisj (([] : List (List (Nat × α))) ++ (withTags chs).map id) := by
    intro chs
    simpa [withTags] using pairwise_withTagsFrom chs 0
  have hsel : ∀ (chs : List (List α)) (j : Nat) (h : j < chs.length),
      selTag j ((([] : List (List (Nat × α))) ++ (withTags chs).map id).flatten)
        = chs.get ⟨j, h⟩ := by
    intro chs j h
    simpa [withTags] using selTag_withTagsFrom_flatten chs 0 j h
  have hpairB : ∀ (chs : List (List β)),
      List.Pairwise TagDisj (([] : List (List (Nat × β)))
        ++ chs.enum.map (fun p => p.2.map (Prod.mk p.1))) := by
    intro chs
    simpa [List.enum, map_enumFrom_tags] using pairwise_withTagsFrom chs 0
  have hselB : ∀ (chs : List (List β)) (j : Nat) (h : j < chs.length),
      selTag j ((([] : List (List (Nat × β)))
        ++ chs.enum.map (fun p => p.2.map (Prod.mk p.1))).flatten) = chs.get ⟨j, h⟩ := by
    intro chs j h
    simpa [List.enum, map_enumFrom_tags] using selTag_withTagsFrom_flatten chs 0 j h
  refine ⟨?_, ?_, ?_, ?_, ?_, ?_⟩
  · intro chs out j h hm
    have := merge_selTag hm (hpair chs) j
    rw [this, hsel chs j h]
  · intro done chs out j h hm
    obtain ⟨t, ht⟩ := mergeU_selTag hm (hpair chs) j
    exact ⟨t, by rw [ht, hsel chs j h]⟩
  · intro chs out j h hm
    have := merge_selTag hm (hpairB chs) j
    rw [this, hselB chs j h]
  · intro done chs out j h hm
    obtain ⟨t, ht⟩ := mergeU_selTag hm (hpairB chs) j
    exact ⟨t, by rw [ht, hselB chs j h]⟩
  · simpa [Flatten] using merge_join id [[1], [2]]
  · exact Merge.spawn [1] [[2]] [] [2, 1]
      (Merge.spawn [2] [] [[1]] [2, 1]
        (Merge.emit [] [[1]] [] 2 [] [1]
          (Merge.emit [] [] [[]] 1 [] []
            (Merge.nil [[], []] (by decide)))))


/-! ## The fan-in engine as a small-step system

One state per program point of the code of `Flatten` / `FlattenUntil` /
`Bind` / `BindUntil`:

* the engine goroutine is either in its outer loop with some input still to
  arrive (`looping`), blocked in `wait.Wait()` (`waiting`), or past
  `close(out)` (`closedOut`);
* each registered drain task is either at its select about to receive from
  its inner channel (`toRecv`), or holding a received value and blocked on
  the unguarded `out <- value` send (`toSend`); a finished task
  (`wait.Done()`) is removed from the list;
* `done` records whether the caller has closed the cancellation channel, and
  `output` what the downstream consumer has received from `out` so far.

The parameter `can` distinguishes the `...Until` operators (whose selects
have a `<-done` case) from `Flatten`/`Bind` (which never consult `done`).
A `select` with several ready cases may take any of them, so e.g. with `done`
closed and input available both `spawn` and `cancelOuter` are enabled. -/

inductive TaskSt (β : Type) where
  | toRecv : List β → TaskSt β
  | toSend : β → List β → TaskSt β
deriving DecidableEq

inductive OuterSt (α : Type) where
  | looping : List α → OuterSt α
  | waiting : OuterSt α
  | closedOut : OuterSt α
deriving DecidableEq

structure Sys (α β : Type) where
  done : Bool
  outer : OuterSt α
  tasks : List (TaskSt β)
  output : List β
deriving DecidableEq

/-- The transitions, transcribed from the source: `fire` is the caller
closing `done`; `spawn` is the outer loop receiving an item, obtaining the
inner channel as `f` of it and doing `wait.Add(1)` + `go ...`; `exhaust` is
the outer receive returning `!ok`; `cancelOuter` is the outer select taking
`<-done`; `recvVal`/`recvEnd` are a drain task's select receiving a value /
observing its inner channel closed (then `wait.Done()`); `cancelTask` is a
drain task's select taking `<-done`; `deliver` is the consumer receiving a
value a task was blocked sending (`out <- value`, not guarded by `done`);
`closeOut` is `wait.Wait()` returning with the deferred `close(out)`. -/
inductive Step {α β : Type} (f : α → List β) (can : Bool) : Sys α β → Sys α β → Prop where
  | fire (o : OuterSt α) (ts : List (TaskSt β)) (out : List β) :
      can = true →
      Step f can ⟨false, o, ts, out⟩ ⟨true, o, ts, out⟩
  | spawn (d : Bool) (x : α) (p : List α) (ts : List (TaskSt β)) (out : List β) :
      Step f can ⟨d, .looping (x :: p), ts, out⟩
        ⟨d, .looping p, ts ++ [.toRecv (f x)], out⟩
  | exhaust (d : Bool) (ts : List (TaskSt β)) (out : List β) :
      Step f can ⟨d, .looping [], ts, out⟩ ⟨d, .waiting, ts, out⟩
  | cancelOuter (p : List α) (ts : List (TaskSt β)) (out : List β) :
      can = true →
      Step f can ⟨true, .looping p, ts, out⟩ ⟨true, .waiting, ts, out⟩
  | recvVal (d : Bool) (o : OuterSt α) (pre post : List (TaskSt β)) (v : β) (r out : List β) :
      Step f can ⟨d, o, pre ++ .toRecv (v :: r) :: post, out⟩
        ⟨d, o, pre ++ .toSend v r :: post, out⟩
  | recvEnd (d : Bool) (o : OuterSt α) (pre post : List (TaskSt β)) (out : List β) :
      Step f can ⟨d, o, pre ++ .toRecv [] :: post, out⟩ ⟨d, o, pre ++ post, out⟩
  | cancelTask (o : OuterSt α) (pre post : List (TaskSt β)) (r : List β) (out : List β) :
      can = true →
      Step f can ⟨true, o, pre ++ .toRecv r :: post, out⟩ ⟨true, o, pre ++ post, out⟩
  | deliver (d : Bool) (o : OuterSt α) (pre post : List (TaskSt β)) (v : β) (r out : List β) :
      Step f can ⟨d, o, pre ++ .toSend v r :: post, out⟩
        ⟨d, o, pre ++ .toRecv r :: post, out ++ [v]⟩
  | closeOut (d : Bool) (out : List β) :
      Step f can ⟨d, .waiting, [], out⟩ ⟨d, .closedOut, [], out⟩

abbrev Reaches {α β : Type} (f : α → List β) (can : Bool) : Sys α β → Sys α β → Prop :=
  Relation.ReflTransGen (Step f can)

/-- A step that is not a delivery into the consumer: what the system can do
while the consumer of the output channel has stopped reading (`deliver` is
exactly the step that extends `output`). -/
def StepND {α β : Type} (f : α → List β) (can : Bool) (s s' : Sys α β) : Prop :=
  Step f can s s' ∧ s'.output = s.output

abbrev ReachesND {α β : Type} (f : α → List β) (can : Bool) : Sys α β → Sys α β → Prop :=
  Relation.ReflTransGen (StepND f can)

/-- The state at the `go func()` entry of an operator invocation on input
`p`: `done` not yet fired, no tasks, nothing delivered. -/
def start {α β : Type} (p : List α) : Sys α β :=
  ⟨false, .looping p, [], []⟩

def taskW {β : Type} : TaskSt β → Nat
  | .toRecv l => 2 * l.length + 2
  | .toSend _ r => 2 * r.length + 3

def doneW : Bool → Nat
  | true => 0
  | false => 1

def outerW {α β : Type} (f : α → List β) : OuterSt α → Nat
  | .looping p => 2 + (p.map (fun x => taskW (TaskSt.toRecv (f x)) + 1)).sum
  | .waiting => 1
  | .closedOut => 0

/-- A termination measure: every transition strictly decreases it. -/
def sysW {α β : Type} (f : α → List β) (s : Sys α β) : Nat :=
  outerW f s.outer + (s.tasks.map taskW).sum + doneW s.done

theorem step_measure {α β : Type} {f : α → List β} {can : Bool} {s s' : Sys α β}
    (h : Step f can s s') : sysW f s' < sysW f s := by
  cases h with
  | fire o ts out hc => simp [sysW, doneW]
  | spawn d x p ts out =>
      simp [sysW, outerW, taskW, List.map_append, List.sum_append]
      omega
  | exhaust d ts out => simp [sysW, outerW]
  | cancelOuter p ts out hc => simp [sysW, outerW]; omega
  | recvVal d o pre post v r out =>
      simp [sysW, taskW, List.map_append, List.sum_append]
      omega
  | recvEnd d o pre post out =>
      simp [sysW, taskW, List.map_append, List.sum_append]
  | cancelTask o pre post r out hc =>
      simp [sysW, taskW, List.map_append, List.sum_append]
  | deliver d o pre post v r out =>
      simp [sysW, taskW, List.map_append, List.sum_append]
  | closeOut d out => simp [sysW, outerW]

theorem step_progress {α β : Type} (f : α → List β) (can : Bool) :
    ∀ s : Sys α β, s.outer ≠ OuterSt.closedOut → ∃ s', Step f can s s' := by
  intro s h
  obtain ⟨d, o, ts, out⟩ := s
  cases o with
  | looping p =>
      cases p with
      | nil => exact ⟨_, Step.exhaust d ts out⟩
      | cons x p => exact ⟨_, Step.spawn d x p ts out⟩
  | waiting =>
      cases ts with
      | nil => exact ⟨_, Step.closeOut d out⟩
      | cons t rest =>
          cases t with
          | toRecv l =>
              cases l with
              | nil => exact ⟨_, Step.recvEnd d OuterSt.waiting [] rest out⟩
              | cons v r => exact ⟨_, Step.recvVal d OuterSt.waiting [] rest v r out⟩
          | toSend v r => exact ⟨_, Step.deliver d OuterSt.waiting [] rest v r out⟩
  | closedOut => exact absurd rfl h

theorem step_closed_inv {α β : Type} {f : α → List β} {can : Bool} {s s' : Sys α β}
    (h : Step f can s s') (hs : s.outer = OuterSt.closedOut → s.tasks = []) :
    s'.outer = OuterSt.closedOut → s'.tasks = [] := by
  cases h with
  | fire o ts out hc => intro h'; exact hs h'
  | spawn d x p ts out => intro h'; exact absurd h' (fun hh => OuterSt.noConfusion hh)
  | exhaust d ts out => intro h'; exact absurd h' (fun hh => OuterSt.noConfusion hh)
  | cancelOuter p ts out hc => intro h'; exact absurd h' (fun hh => OuterSt.noConfusion hh)
  | recvVal d o pre post v r out => intro h'; have := hs h'; simp at this
  | recvEnd d o pre post out => intro h'; have := hs h'; simp at this
  | cancelTask o pre post r out hc => intro h'; have := hs h'; simp at this
  | deliver d o pre post v r out => intro h'; have := hs h'; simp at this
  | closeOut d out => intro _; rfl

theorem reaches_closed_tasks {α β : Type} {f : α → List β} {can : Bool} {p : List α}
    {s : Sys α β} (h : Reaches f can (start p) s) :
    s.outer = OuterSt.closedOut → s.tasks = [] := by
  induction h with
  | refl => intro h'; exact absurd h' (fun hh => OuterSt.noConfusion hh)
  | tail h1 h2 ih => exact step_closed_inv h2 ih

theorem step_after_closed {α β : Type} {f : α → List β} {can : Bool} {s s' : Sys α β}
    (h : Step f can s s') (hc : s.outer = OuterSt.closedOut) (ht : s.tasks = []) :
    s'.outer = OuterSt.closedOut ∧ s'.output = s.output := by
  cases h with
  | fire o ts out hc' => exact ⟨hc, rfl⟩
  | spawn d x p ts out => exact absurd hc (fun hh => OuterSt.noConfusion hh)
  | exhaust d ts out => exact absurd hc (fun hh => OuterSt.noConfusion hh)
  | cancelOuter p ts out hc' => exact absurd hc (fun hh => OuterSt.noConfusion hh)
  | recvVal d o pre post v r out => simp at ht
  | recvEnd d o pre post out => simp at ht
  | cancelTask o pre post r out hc' => simp at ht
  | deliver d o pre post v r out => simp at ht
  | closeOut d out => exact absurd hc (fun hh => OuterSt.noConfusion hh)

/-- Claim C2: in every operator of the merge family the output channel is
closed exactly once, by the engine goroutine, and only after every
registered drain task has finished: (i) in any reachable closed state the
task group is empty; (ii) once closed, the state stays closed and no further
value is ever delivered; (iii) any state that is not yet closed can step, and
(iv) every step decreases the measure `sysW` — so every maximal run is
finite and ends with the close: the output closes exactly when all
registered tasks have finished, and downstream iteration terminates. -/
theorem engine_close_correct {α β : Type} :
    (∀ (f : α → List β) (can : Bool) (p : List α) (s : Sys α β),
        Reaches f can (start p) s → s.outer = OuterSt.closedOut → s.tasks = [])
    ∧ (∀ (f : α → List β) (can : Bool) (p : List α) (s s' : Sys α β),
        Reaches f can (start p) s → Step f can s s' → s.outer = OuterSt.closedOut →
        s'.outer = OuterSt.closedOut ∧ s'.output = s.output)
    ∧ (∀ (f : α → List β) (can : Bool) (s : Sys α β),
        s.outer ≠ OuterSt.closedOut → ∃ s', Step f can s s')
    ∧ (∀ (f : α → List β) (can : Bool) (s s' : Sys α β),
        Step f can s s' → sysW f s' < sysW f s) := by
  refine ⟨?_, ?_, ?_, ?_⟩
  · intro f can p s h
    exact reaches_closed_tasks h
  · intro f can p s s' h hstep hc
    exact step_after_closed hstep hc (reaches_closed_tasks h hc)
  · intro f can s h
    exact step_progress f can s h
  · intro f can s s' h
    exact step_measure h

/-- Claim C3, counterexample: the claim says that after the `done` channel
closes the outer loop registers no new inner-drain tasks.  But the outer
statement is a `select` racing `<-done` against the input receive, and Go may
take either ready case: from the state where `done` has fired and input `7`
is available, the `spawn` transition is enabled and registers a new drain
task. -/
theorem spawn_after_done_cex :
    (⟨true, OuterSt.looping [7], [], []⟩ : Sys Nat Nat).done = true
    ∧ Step (fun n => [n]) true
        (⟨true, OuterSt.looping [7], [], []⟩ : Sys Nat Nat)
        ⟨true, OuterSt.looping [], [TaskSt.toRecv [7]], []⟩
    ∧ (⟨true, OuterSt.looping [], [TaskSt.toRecv [7]], []⟩ : Sys Nat Nat).tasks.length
        = (⟨true, OuterSt.looping [7], [], []⟩ : Sys Nat Nat).tasks.length + 1 := by
  refine ⟨rfl, ?_, rfl⟩
  exact Step.spawn true 7 [] [] []

theorem tasks_clearable {α β : Type} (f : α → List β) :
    ∀ (ts : List (TaskSt β)) (s : Sys α β), s.done = true → s.tasks = ts →
      ∃ s', Reaches f true s s' ∧ s'.tasks = [] ∧ s'.outer = s.outer ∧ s'.done = true := by
  intro ts
  induction ts with
  | nil =>
      intro s hd ht
      exact ⟨s, Relation.ReflTransGen.refl, ht, rfl, hd⟩
  | cons t rest ih =>
      intro s hd ht
      obtain ⟨d, o, tasks, out⟩ := s
      cases hd
      cases ht
      cases t with
      | toRecv r =>
          have h1 : Step f true ⟨true, o, TaskSt.toRecv r :: rest, out⟩ ⟨true, o, rest, out⟩ :=
            Step.cancelTask o [] rest r out rfl
          obtain ⟨s', hr, h2, h3, h4⟩ := ih ⟨true, o, rest, out⟩ rfl rfl
          exact ⟨s', Relation.ReflTransGen.head h1 hr, h2, h3, h4⟩
      | toSend v r =>
          have h1 : Step f true ⟨true, o, TaskSt.toSend v r :: rest, out⟩
              ⟨true, o, TaskSt.toRecv r :: rest, out ++ [v]⟩ :=
            Step.deliver true o [] rest v r out
          have h2 : Step f true ⟨true, o, TaskSt.toRecv r :: rest, out ++ [v]⟩
              ⟨true, o, rest, out ++ [v]⟩ :=
            Step.cancelTask o [] rest r (out ++ [v]) rfl
          obtain ⟨s', hr, h3, h4, h5⟩ := ih ⟨true, o, rest, out ++ [v]⟩ rfl rfl
          exact ⟨s', Relation.ReflTransGen.head h1 (Relation.ReflTransGen.head h2 hr), h3, h4, h5⟩

/-- Claim C3, amended: after the `done` channel closes, the outer select may
still register new drain tasks while input is available (see
`spawn_after_done_cex`), but the cancellation branches stay continuously
enabled: from any state with `done` fired, the outer loop can exit, every
registered drain task can finish (a receive-blocked task by observing `done`,
a send-blocked one after its pending delivery), and the engine can reach the
join and close the output — cancellation never produces a task group that
cannot be joined. -/
theorem cancel_join_reachable {α β : Type} (f : α → List β) (s : Sys α β)
    (h : s.done = true) :
    ∃ s', Reaches f true s s' ∧ s'.outer = OuterSt.closedOut ∧ s'.tasks = [] := by
  obtain ⟨s₁, hr1, ht1, ho1, hd1⟩ := tasks_clearable f s.tasks s h rfl
  obtain ⟨d₁, o₁, ts₁, out₁⟩ := s₁
  cases hd1
  cases ht1
  cases o₁ with
  | looping p =>
      have h1 : Step f true ⟨true, OuterSt.looping p, [], out₁⟩
          ⟨true, OuterSt.waiting, [], out₁⟩ := Step.cancelOuter p [] out₁ rfl
      have h2 : Step f true ⟨true, OuterSt.waiting, [], out₁⟩
          ⟨true, OuterSt.closedOut, [], out₁⟩ := Step.closeOut true out₁
      exact ⟨_, hr1.trans (Relation.ReflTransGen.head h1 (Relation.ReflTransGen.single h2)),
        rfl, rfl⟩
  | waiting =>
      exact ⟨_, hr1.trans (Relation.ReflTransGen.single (Step.closeOut true out₁)), rfl, rfl⟩
  | closedOut => exact ⟨_, hr1, rfl, rfl⟩

theorem cancel_join_reachable_w :
    ∃ s', Reaches (fun n : Nat => [n]) true
        (⟨true, OuterSt.looping [3], [TaskSt.toSend 5 [], TaskSt.toRecv [2]], [9]⟩ : Sys Nat Nat)
        s'
      ∧ s'.outer = OuterSt.closedOut ∧ s'.tasks = [] :=
  cancel_join_reachable (fun n => [n]) _ rfl


/-! ## The blocked-send hazard -/

theorem stepND_keeps_send {α β : Type} {f : α → List β} {can : Bool} {s s' : Sys α β}
    {v : β} {r : List β} (hm : TaskSt.toSend v r ∈ s.tasks)
    (ho : s.outer ≠ OuterSt.closedOut) (h : StepND f can s s') :
    TaskSt.toSend v r ∈ s'.tasks ∧ s'.outer ≠ OuterSt.closedOut := by
  obtain ⟨hstep, hout⟩ := h
  cases hstep with
  | fire o ts out hc => exact ⟨hm, ho⟩
  | spawn d x p ts out =>
      exact ⟨List.mem_append_left _ hm, fun hh => OuterSt.noConfusion hh⟩
  | exhaust d ts out => exact ⟨hm, fun hh => OuterSt.noConfusion hh⟩
  | cancelOuter p ts out hc => exact ⟨hm, fun hh => OuterSt.noConfusion hh⟩
  | recvVal d o pre post v' r' out =>
      refine ⟨?_, ho⟩
      rcases List.mem_append.mp hm with h1 | h1
      · exact List.mem_append_left _ h1
      · rcases List.mem_cons.mp h1 with h2 | h2
        · exact absurd h2 (fun hh => TaskSt.noConfusion hh)
        · exact List.mem_append_right _ (List.mem_cons_of_mem _ h2)
  | recvEnd d o pre post out =>
      refine ⟨?_, ho⟩
      rcases List.mem_append.mp hm with h1 | h1
      · exact List.mem_append_left _ h1
      · rcases List.mem_cons.mp h1 with h2 | h2
        · exact absurd h2 (fun hh => TaskSt.noConfusion hh)
        · exact List.mem_append_right _ h2
  | cancelTask o pre post r' out hc =>
      refine ⟨?_, ho⟩
      rcases List.mem_append.mp hm with h1 | h1
      · exact List.mem_append_left _ h1
      · rcases List.mem_cons.mp h1 with h2 | h2
        · exact absurd h2 (fun hh => TaskSt.noConfusion hh)
        · exact List.mem_append_right _ h2
  | deliver d o pre post v' r' out =>
      exfalso
      have := congrArg List.length hout
      simp at this
  | closeOut d out => exact absurd hm (List.not_mem_nil _)

theorem reachND_keeps_send {α β : Type} {f : α → List β} {can : Bool} {s s' : Sys α β}
    {v : β} {r : List β} (hm : TaskSt.toSend v r ∈ s.tasks)
    (ho : s.outer ≠ OuterSt.closedOut) (h : ReachesND f can s s') :
    TaskSt.toSend v r ∈ s'.tasks ∧ s'.outer ≠ OuterSt.closedOut ∧ s'.output = s.output := by
  induction h with
  | refl => exact ⟨hm, ho, rfl⟩
  | tail h1 h2 ih =>
      obtain ⟨a, b, c⟩ := ih
      obtain ⟨k1, k2⟩ := stepND_keeps_send a b h2
      exact ⟨k1, k2, by rw [h2.2, c]⟩

theorem blocked_send_only_delivery {α β : Type} (f : α → List β) (v : β) (r out : List β)
    (s' : Sys α β)
    (h : Step f true ⟨true, OuterSt.waiting, [TaskSt.toSend v r], out⟩ s') :
    s' = ⟨true, OuterSt.waiting, [TaskSt.toRecv r], out ++ [v]⟩ := by
  generalize hs : (⟨true, OuterSt.waiting, [TaskSt.toSend v r], out⟩ : Sys α β) = s at h
  cases h with
  | fire o ts out' hc => simp at hs
  | spawn d x p ts out' => simp at hs
  | exhaust d ts out' => simp at hs
  | cancelOuter p ts out' hc => simp at hs
  | recvVal d o pre post v' r' out' =>
      injection hs with h1 h2 h3 h4
      cases pre with
      | nil => simp at h3
      | cons a pre => simp at h3
  | recvEnd d o pre post out' =>
      injection hs with h1 h2 h3 h4
      cases pre with
      | nil => simp at h3
      | cons a pre => simp at h3
  | cancelTask o pre post r' out' hc =>
      injection hs with h1 h2 h3 h4
      cases pre with
      | nil => simp at h3
      | cons a pre => simp at h3
  | deliver d o pre post v' r' out' =>
      injection hs with h1 h2 h3 h4
      cases pre with
      | nil =>
          simp only [List.nil_append] at h3
          injection h3 with h5 h6
          injection h5 with h7 h8
          subst h1 h2 h4 h6 h7 h8
          rfl
      | cons a pre => simp at h3
  | closeOut d out' =>
      injection hs with h1 h2 h3 h4
      simp at h3


/-- The single drain task of `MapUntil` (and, with the identity transform,
`TakeUntil`): at its select it may receive a value, observe its input closed,
or — once `done` has fired — take the `<-done` case; after receiving it is
blocked on the unguarded `out <- f(value)` send until the consumer reads. -/
inductive MTask (γ δ : Type) where
  | mrecv : List γ → MTask γ δ
  | msend : δ → List γ → MTask γ δ
  | mstop : MTask γ δ
deriving DecidableEq

inductive MStep {γ δ : Type} (g : γ → δ) (done : Bool) : MTask γ δ → MTask γ δ → Prop where
  | observe (rest : List γ) : done = true → MStep g done (.mrecv rest) .mstop
  | recvEnd : MStep g done (.mrecv []) .mstop
  | recvVal (v : γ) (rest : List γ) : MStep g done (.mrecv (v :: rest)) (.msend (g v) rest)
  | deliverM (v : δ) (rest : List γ) : MStep g done (.msend v rest) (.mrecv rest)

/-- Claim C4: a send into the output channel is never raced against the
cancellation signal.  (i) In the merge engine, a drain task that has received
a value and is blocked sending it — even with `done` fired and the outer loop
already joined — has delivery to the consumer as its one and only transition:
it cannot observe `done` at that point.  (ii) Consequently, if the consumer
of the output stops reading (no `deliver` steps, `ReachesND`), a
send-blocked task stays in the task group forever and the output channel is
never closed.  (iii) The same holds of the single task of
`MapUntil`/`TakeUntil`: from its sending state, `done` is not consulted. -/
theorem send_not_raced_with_done {α β γ δ : Type} :
    (∀ (f : α → List β) (v : β) (r out : List β) (s' : Sys α β),
        Step f true ⟨true, OuterSt.waiting, [TaskSt.toSend v r], out⟩ s' →
        s' = ⟨true, OuterSt.waiting, [TaskSt.toRecv r], out ++ [v]⟩)
    ∧ (∀ (f : α → List β) (can : Bool) (s s' : Sys α β) (v : β) (r : List β),
        TaskSt.toSend v r ∈ s.tasks → s.outer ≠ OuterSt.closedOut →
        ReachesND f can s s' →
        TaskSt.toSend v r ∈ s'.tasks ∧ s'.outer ≠ OuterSt.closedOut
          ∧ s'.output = s.output)
    ∧ (∀ (g : γ → δ) (v : δ) (rest : List γ) (t' : MTask γ δ),
        MStep g true (.msend v rest) t' → t' = .mrecv rest) := by
  refine ⟨?_, ?_, ?_⟩
  · intro f v r out s' h
    exact blocked_send_only_delivery f v r out s' h
  · intro f can s s' v r hm ho h
    exact reachND_keeps_send hm ho h
  · intro g v rest t' h
    cases h
    rfl

end Channels
